import Mathlib

/-!
# Verification of the 3DLL-IPTV EPG core

A shallow embedding, in Lean 4, of the EPG core of the 3DLL-IPTV
repository: the XMLTV datetime parser and programme decoder
(`epg_xmltv.py`), the greedy source-coverage selector, guide merge and
custom-channels builder (`epg_npm_bridge.py`), and the EPG program store
(`storage.py`).

Python strings are modelled as `List Char` (`PyStr`).  String helpers
(`strip`, `casefold`, `upper`, `split`) are modelled for the ASCII
fragment, which is the fragment the program's data (tvg-ids, XMLTV
timestamps, site names) lives in.  SQLite tables are modelled as Lean
lists of rows in insertion (rowid) order; XML documents are modelled as
lists of the element records the code actually reads.  Python functions
that can raise return `Except Unit`.
-/

namespace IPTV

/-- Python strings, modelled as lists of characters. -/
abbrev PyStr := List Char

/-- The ASCII whitespace characters stripped by Python's `str.strip()` /
split on by `str.split()` (space, tab, LF, CR, VT, FF). -/
def isPyWs (c : Char) : Bool :=
  c.toNat = 32 || c.toNat = 9 || c.toNat = 10 || c.toNat = 13 ||
    c.toNat = 11 || c.toNat = 12

/-- `str.lstrip()`. -/
def lstrip (s : PyStr) : PyStr := s.dropWhile isPyWs

/-- `str.rstrip()`. -/
def rstrip (s : PyStr) : PyStr := (s.reverse.dropWhile isPyWs).reverse

/-- `str.strip()`. -/
def strip (s : PyStr) : PyStr := rstrip (lstrip s)

/-- `str.casefold()` on the ASCII fragment: map `A`-`Z` to `a`-`z`
(this is `Char.toLower`). -/
def caseFold (s : PyStr) : PyStr := s.map Char.toLower

/-- `str.upper()` on the ASCII fragment: map `a`-`z` to `A`-`Z`
(this is `Char.toUpper`). -/
def pyUpper (s : PyStr) : PyStr := s.map Char.toUpper

/-- `str.split()` (no separator: split on whitespace runs, no empty
pieces). -/
def splitWs (s : PyStr) : List PyStr :=
  (s.splitOnP isPyWs).filter (fun p => p ≠ [])

/-- `epg_npm_bridge._canonical_id`: strip, take the part before the first
`@` (`v.split("@", 1)[0]`), strip again, casefold.  Empty input gives the
empty canonical key. -/
def canonical_id (value : PyStr) : PyStr :=
  let v := strip value
  if v = [] then []
  else caseFold (strip (v.takeWhile (fun c => c ≠ '@')))

/-- `epg_npm_bridge._quality_rank`: rank 2 for ids containing `@HD`
(after upper-casing), 1 for `@SD`, 0 otherwise. -/
def quality_rank (xmltv_id : PyStr) : Nat :=
  let x := pyUpper xmltv_id
  if "@HD".data <:+: x then 2
  else if "@SD".data <:+: x then 1
  else 0

/-! ## XMLTV decoder (`epg_xmltv.py`) -/

/-- An ASCII decimal digit (the `\d` of the anchored `^(\d{14})` pattern,
restricted to ASCII as the data is). -/
def isAsciiDigit (c : Char) : Bool := 48 ≤ c.toNat ∧ c.toNat ≤ 57

/-- `int()` on a string of decimal digits. -/
def natOfDigits (ds : List Char) : Nat :=
  ds.foldl (fun a c => a * 10 + (c.toNat - 48)) 0

/-- Gregorian leap year, as `datetime` implements it. -/
def isLeap (y : Nat) : Bool := y % 4 = 0 ∧ (y % 100 ≠ 0 ∨ y % 400 = 0)

/-- Days in a month of the proleptic Gregorian calendar. -/
def daysInMonth (y m : Nat) : Nat :=
  if m = 2 then (if isLeap y then 29 else 28)
  else if m = 4 ∨ m = 6 ∨ m = 9 ∨ m = 11 then 30
  else 31

/-- Days from the Unix epoch (1970-01-01) to the civil date `y-m-d`
(proleptic Gregorian, `1 ≤ y`, `1 ≤ m ≤ 12`, `1 ≤ d`): the standard
era/year-of-era computation `datetime.timestamp` agrees with. -/
def daysFromCivil (y m d : Nat) : Int :=
  let yAdj := if m ≤ 2 then y - 1 else y
  let era := yAdj / 400
  let yoe := yAdj % 400
  let mp := if 2 < m then m - 3 else m + 9
  let doy := (153 * mp + 2) / 5 + d - 1
  let doe := yoe * 365 + yoe / 4 - yoe / 100 + doy
  (era * 146097 + doe : Int) - 719468

/-- Whole seconds from the Unix epoch of the UTC instant
`y-m-d h:mi:s`. -/
def utcTimestamp (y m d h mi s : Nat) : Int :=
  daysFromCivil y m d * 86400 + (h * 3600 + mi * 60 + s : Nat)

/-- The validity condition under which
`datetime.strptime(d14, "%Y%m%d%H%M%S")` succeeds on a 14-digit string
(fields in calendar range; outside it `strptime`/`datetime` raise
`ValueError`). -/
def validDT (y mo d h mi s : Nat) : Bool :=
  1 ≤ y ∧ 1 ≤ mo ∧ mo ≤ 12 ∧ 1 ≤ d ∧ d ≤ daysInMonth y mo ∧
    h ≤ 23 ∧ mi ≤ 59 ∧ s ≤ 59

/-- `epg_xmltv._parse_xmltv_dt` (the spec's `parse_datetime`).  Returns
`.ok ts` for a normal return of unix seconds, `.ok 0` when the anchored
14-digit prefix is absent, `.error ()` when the Python code raises
(`ValueError` from `strptime`/`datetime` on out-of-range calendar fields,
from `int()` on a non-numeric offset slice, or from `timezone()` on an
offset of a day or more). -/
def parse_xmltv_dt (s0 : PyStr) : Except Unit Int :=
  if s0 = [] then .ok 0
  else
    let s := strip s0
    if ¬ (14 ≤ s.length ∧ (s.take 14).all isAsciiDigit) then .ok 0
    else
      let d14 := s.take 14
      let y := natOfDigits (d14.take 4)
      let mo := natOfDigits ((d14.drop 4).take 2)
      let d := natOfDigits ((d14.drop 6).take 2)
      let h := natOfDigits ((d14.drop 8).take 2)
      let mi := natOfDigits ((d14.drop 10).take 2)
      let sec := natOfDigits ((d14.drop 12).take 2)
      if ¬ validDT y mo d h mi sec then .error ()
      else
        let base := utcTimestamp y mo d h mi sec
        match (splitWs s).drop 1 with
        | off :: _ =>
          if (off.head? = some '+' ∨ off.head? = some '-') ∧ off.length = 5 then
            if ((off.drop 1).take 2).all isAsciiDigit ∧
                ((off.drop 3).take 2).all isAsciiDigit then
              let sign : Int := if off.head? = some '+' then 1 else -1
              let hh := natOfDigits ((off.drop 1).take 2)
              let mm := natOfDigits ((off.drop 3).take 2)
              let offset := sign * (hh * 3600 + mm * 60 : Nat)
              if offset.natAbs < 86400 then .ok (base - offset) else .error ()
            else .error ()
          else .ok base
        | [] => .ok base

instance {α : Type} [DecidableEq α] : DecidableEq (Except Unit α) := fun a b =>
  match a, b with
  | .ok x, .ok y => if h : x = y then .isTrue (by rw [h]) else .isFalse (by simp [h])
  | .error x, .error y => .isTrue (by rfl)
  | .ok _, .error _ => .isFalse (by simp)
  | .error _, .ok _ => .isFalse (by simp)

/-- A `<programme>` element as `iter_programs` reads it: the `channel`,
`start` and `stop` attributes (absent attribute = `""`), and the text of
the first `<title>` / `<desc>` child (`none` models a missing child or a
child whose text is `None`/empty — all treated alike by the code). -/
structure PyElem where
  channel : PyStr
  start : PyStr
  stop : PyStr
  title : Option PyStr
  desc : Option PyStr
deriving DecidableEq, Repr

/-- A program record as yielded by `iter_programs` (and stored by
`Storage`, whose insert consumes exactly these five fields). -/
structure ProgRec where
  tvg_id : PyStr
  start_ts : Int
  stop_ts : Int
  title : PyStr
  desc : PyStr
deriving DecidableEq, Repr

/-- The title/desc text of an element, as the code extracts it
(`t.text.strip()` when the child exists with truthy text, else `""`). -/
def childText (t : Option PyStr) : PyStr :=
  match t with
  | some txt => strip txt
  | none => []

/-- `epg_xmltv.iter_programs`, over the document's list of `<programme>`
elements.  Returns the records the generator yields, paired with
`some ()` if the iteration was aborted by an exception from
`_parse_xmltv_dt` (the records yielded before the abort are kept). -/
def iter_programs : List PyElem → List ProgRec × Option Unit
  | [] => ([], none)
  | e :: es =>
    match parse_xmltv_dt e.start, parse_xmltv_dt e.stop with
    | .ok st, .ok sp =>
      let tvg := strip e.channel
      let rest := iter_programs es
      if tvg ≠ [] ∧ st ≠ 0 ∧ sp ≠ 0 then
        (⟨tvg, st, sp, childText e.title, childText e.desc⟩ :: rest.1, rest.2)
      else rest
    | _, _ => ([], some ())

/-- One step of the `epg_npm_bridge._wanted_map` loop: strip the id, skip
it if empty, compute its canonical key, and record `(key, stripped id)` if
the key is non-empty and not yet present.  The dict is an association list
in insertion order. -/
def wantedStep (out : List (PyStr × PyStr)) (t0 : PyStr) : List (PyStr × PyStr) :=
  let t := strip t0
  if t = [] then out
  else
    let k := canonical_id t
    if k ≠ [] ∧ out.lookup k = none then out ++ [(k, t)] else out

/-- `epg_npm_bridge._wanted_map`: `{canonical_id: stripped original
tvg_id}`, first occurrence of each canonical key wins. -/
def wanted_map (tvg_ids : List PyStr) : List (PyStr × PyStr) :=
  tvg_ids.foldl wantedStep []

/-! ## Persistent store (`storage.py`) -/

/-- The `epg_programs` table is modelled as the list of its rows in rowid
(insertion) order.  A row holds the five inserted columns. -/
abbrev EpgTable := List ProgRec

/-- The buffered insert loop of `Storage.upsert_epg_programs`: append each
program to `buf`, flush (executemany-insert, in buffer order) whenever
`len(buf) >= chunk`, and flush the final partial buffer after the
sequence ends. -/
def upsertLoop (rows buf : EpgTable) (chunk : Nat) : List ProgRec → EpgTable
  | [] => rows ++ buf
  | p :: ps =>
    let buf2 := buf ++ [p]
    if chunk ≤ buf2.length then upsertLoop (rows ++ buf2) [] chunk ps
    else upsertLoop rows buf2 chunk ps

/-- `Storage.upsert_epg_programs(programs, chunk)` applied to a table in
state `rows`. -/
def upsert_epg_programs (rows : EpgTable) (programs : List ProgRec) (chunk : Nat) :
    EpgTable :=
  upsertLoop rows [] chunk programs

/-- The `WHERE` clause of the "now" query of `Storage.get_now_next`. -/
def nowCond (tvg : PyStr) (now : Int) (r : ProgRec) : Bool :=
  r.tvg_id = tvg ∧ r.start_ts ≤ now ∧ now < r.stop_ts

/-- The `WHERE` clause of the "next" query of `Storage.get_now_next`. -/
def nextCond (tvg : PyStr) (now : Int) (r : ProgRec) : Bool :=
  r.tvg_id = tvg ∧ now < r.start_ts

/-- `ORDER BY start_ts DESC LIMIT 1`: a row of maximal `start_ts` (SQLite
breaks ties arbitrarily; here the first such row in storage order). -/
def pickMaxStart : List ProgRec → Option ProgRec
  | [] => none
  | r :: rs =>
    match pickMaxStart rs with
    | none => some r
    | some b => if r.start_ts < b.start_ts then some b else some r

/-- `ORDER BY start_ts ASC LIMIT 1`: a row of minimal `start_ts`. -/
def pickMinStart : List ProgRec → Option ProgRec
  | [] => none
  | r :: rs =>
    match pickMinStart rs with
    | none => some r
    | some b => if b.start_ts < r.start_ts then some b else some r

/-- `Storage.get_now_next(tvg_id, now_ts)` over a table state. -/
def get_now_next (rows : EpgTable) (tvg : PyStr) (now : Int) :
    Option ProgRec × Option ProgRec :=
  (pickMaxStart (rows.filter (nowCond tvg now)),
   pickMinStart (rows.filter (nextCond tvg now)))

/-! ## Greedy source selection (`epg_npm_bridge.find_sites_for_tvg_ids`) -/

/-- A coverage index: site name to the list (set) of canonical keys its
`*.channels.xml` declares among the wanted ones. -/
abbrev Coverage := List (String × List PyStr)

/-- `coverage[s]` (sites outside the index cover nothing). -/
def covOf (cov : Coverage) (s : String) : List PyStr := (cov.lookup s).getD []

/-- `len(coverage[s] & remaining)`: the size of the intersection, for
duplicate-free coverage sets. -/
def gainOf (cov : Coverage) (s : String) (remaining : List PyStr) : Nat :=
  ((covOf cov s).filter (fun k => remaining.contains k)).length

/-- The inner `for s in candidates` scan: keep the first not-yet-selected
site of strictly largest gain, starting from `best_gain = 0`,
`best_site = ""`. -/
def bestStep (cov : Coverage) (selected : List String) (remaining : List PyStr)
    (cands : List String) : Nat × String :=
  cands.foldl
    (fun bg s =>
      if selected.contains s then bg
      else if bg.1 < gainOf cov s remaining then (gainOf cov s remaining, s)
      else bg)
    (0, "")

/-- The greedy set-cover `while` loop of `find_sites_for_tvg_ids`:
`while remaining and len(selected) < max_sites`, pick the best site, stop
early on zero gain, else select it and subtract its coverage.  The fuel is
`max_sites - len(selected)`, which the loop decrements by one each
iteration. -/
def greedyLoop (cov : Coverage) (cands : List String) :
    Nat → List String → List PyStr → List String × List PyStr
  | 0, selected, remaining => (selected, remaining)
  | fuel + 1, selected, remaining =>
    if remaining = [] then (selected, remaining)
    else
      let best := bestStep cov selected remaining cands
      if best.1 = 0 then (selected, remaining)
      else
        greedyLoop cov cands fuel (selected ++ [best.2])
          (remaining.filter (fun k => ¬ (covOf cov best.2).contains k))

/-- The selector: wanted canonical keys and a positive budget in, the
selected sites and the uncovered remainder out (the `max_sites <= 0`
escape hatch, which skips the loop, is not modelled here). -/
def select_sites (cov : Coverage) (cands : List String) (wanted_keys : List PyStr)
    (max_sites : Nat) : List String × List PyStr :=
  greedyLoop cov cands max_sites [] wanted_keys

/-! ## Guide merge (`epg_npm_bridge.merge_xmltv`) -/

/-- A `<channel>` element of an input document: its `id` attribute and an
opaque payload standing for its other attributes and content. -/
structure MChan where
  id : PyStr
  payload : Nat
deriving DecidableEq, Repr

/-- An XMLTV document as `merge_xmltv` reads it: its `<channel>` children
and its `<programme>` children (opaque, only moved around). -/
structure MDoc where
  channels : List MChan
  programmes : List Nat
deriving DecidableEq, Repr

/-- The per-document channel scan of `merge_xmltv`: skip channels whose
trimmed id is empty or already seen, otherwise record the id and append
the element. -/
def mergeChanStep (acc : List PyStr × List MChan) (ch : MChan) :
    List PyStr × List MChan :=
  let cid := strip ch.id
  if cid = [] ∨ acc.1.contains cid then acc
  else (acc.1 ++ [cid], acc.2 ++ [ch])

/-- The file loop of `merge_xmltv`.  An input of `none` models a file that
is missing or empty on disk (`not f.exists() or f.stat().st_size == 0`)
and is skipped. -/
def mergeLoop (seen : List PyStr) (chans : List MChan) (progs : List Nat) :
    List (Option MDoc) → MDoc
  | [] => ⟨chans, progs⟩
  | none :: fs => mergeLoop seen chans progs fs
  | some d :: fs =>
    let acc := d.channels.foldl mergeChanStep (seen, chans)
    mergeLoop acc.1 acc.2 (progs ++ d.programmes) fs

/-- `epg_npm_bridge.merge_xmltv` over its input files. -/
def merge_xmltv (files : List (Option MDoc)) : MDoc :=
  mergeLoop [] [] [] files

/-! ## Custom channels (`epg_npm_bridge.build_custom_channels_xml`) -/

/-- A `<channel>` element of a site's `channels.xml`: its `xmltv_id`
attribute and an opaque payload standing for its other attributes and
text. -/
structure SChan where
  xmltv_id : PyStr
  payload : Nat
deriving DecidableEq, Repr

/-- Replace the value at key `k` of an association list, keeping its
position (Python dict update semantics). -/
def replaceEntry (l : List (PyStr × Nat × SChan)) (k : PyStr) (v : Nat × SChan) :
    List (PyStr × Nat × SChan) :=
  l.map (fun e => if e.1 = k then (k, v) else e)

/-- One step of the `best` loop of `build_custom_channels_xml`: skip
channels whose canonical key is empty or not wanted; otherwise insert the
`(rank, element)` entry, or replace the current one only when the new rank
is strictly greater. -/
def bestStepChan (wantedKeys : List PyStr) (best : List (PyStr × Nat × SChan))
    (ch : SChan) : List (PyStr × Nat × SChan) :=
  let k := canonical_id ch.xmltv_id
  if k = [] ∨ ¬ wantedKeys.contains k then best
  else
    let rank := quality_rank ch.xmltv_id
    match best.lookup k with
    | none => best ++ [(k, rank, ch)]
    | some rc => if rc.1 < rank then replaceEntry best k (rank, ch) else best

/-- The `best` dict after scanning the site's channels. -/
def bestFold (wantedKeys : List PyStr) (chans : List SChan) :
    List (PyStr × Nat × SChan) :=
  chans.foldl (bestStepChan wantedKeys) []

/-- `epg_npm_bridge.build_custom_channels_xml`, given the wanted tvg-ids
and the site's channel list.  Raises (`.error`) when no tvg-id is given or
when zero channels match; otherwise writes one element per kept key, with
`xmltv_id` rewritten to the wanted (stripped) original id and the rest of
the element copied. -/
def build_custom_channels_xml (tvg_ids : List PyStr) (chans : List SChan) :
    Except Unit (List SChan) :=
  let wanted := wanted_map tvg_ids
  if wanted = [] then .error ()
  else
    let best := bestFold (wanted.map Prod.fst) chans
    let out := best.map (fun e => SChan.mk ((wanted.lookup e.1).getD []) e.2.2.payload)
    if out.length = 0 then .error () else .ok out

/-! ## Specification-side definitions used by the theorems -/

/-- The per-element yield condition of `iter_programs`, as the spec states
it: a record is produced for an element exactly when its trimmed channel
is non-empty and both timestamps parse (without raising) to non-zero
values. -/
def yieldOf (e : PyElem) : Option ProgRec :=
  match parse_xmltv_dt e.start, parse_xmltv_dt e.stop with
  | .ok st, .ok sp =>
    if strip e.channel ≠ [] ∧ st ≠ 0 ∧ sp ≠ 0 then
      some ⟨strip e.channel, st, sp, childText e.title, childText e.desc⟩
    else none
  | _, _ => none

/-- A well-formed example `<programme>` element. -/
def elemGood : PyElem :=
  ⟨"X".data, "20240101060000".data, "20240101070000".data, some "Show".data, none⟩

/-- The record `elemGood` yields. -/
def recGood : ProgRec := ⟨"X".data, 1704088800, 1704092400, "Show".data, []⟩

/-- An example element missing its `channel` attribute
(`attrib.get("channel") or ""` gives the empty string). -/
def elemNoChannel : PyElem :=
  ⟨[], "20240101060000".data, "20240101070000".data, none, none⟩

/-- An example element whose `stop` equals its `start` (both valid and
non-zero). -/
def elemEqStartStop : PyElem :=
  ⟨"X".data, "20240101060000".data, "20240101060000".data, none, none⟩

/-- The record `elemEqStartStop` yields: its stop instant equals its
start instant. -/
def recEqStartStop : ProgRec := ⟨"X".data, 1704088800, 1704088800, [], []⟩

/-- An example element whose `start` has a 14-digit prefix that is not a
valid calendar instant (month 13): `datetime.strptime` raises on it. -/
def elemBadCalendar : PyElem :=
  ⟨"X".data, "20241301000000".data, "20240101070000".data, none, none⟩

/-- The coverage index of the spec's greedy-selector example:
S1→{a,b}, S2→{b,c}, S3→{d}. -/
def covExample : Coverage :=
  [("S1", [['a'], ['b']]), ("S2", [['b'], ['c']]), ("S3", [['d']])]

/-- The wanted keys of the greedy-selector example. -/
def wantedExample : List PyStr := [['a'], ['b'], ['c'], ['d']]

/-- All candidate orders of the three example sites (tie-breaking between
equally good sites depends on this order, which is implementation
defined). -/
def candOrders : List (List String) :=
  [["S1", "S2", "S3"], ["S1", "S3", "S2"], ["S2", "S1", "S3"],
   ["S2", "S3", "S1"], ["S3", "S1", "S2"], ["S3", "S2", "S1"]]

/-- First-occurrence-wins deduplication of channels by trimmed id,
relative to an already-seen id set: the specification of the channel part
of `merge_xmltv`. -/
def dedupeFirst (seen : List PyStr) : List MChan → List MChan
  | [] => []
  | c :: cs =>
    let k := strip c.id
    if k = [] ∨ seen.contains k then dedupeFirst seen cs
    else c :: dedupeFirst (seen ++ [k]) cs

/-- All channel elements of the present input documents, in input
order. -/
def allChannels (files : List (Option MDoc)) : List MChan :=
  (files.filterMap id).flatMap MDoc.channels

/-- All programme elements of the present input documents, in input
order. -/
def allProgrammes (files : List (Option MDoc)) : List Nat :=
  (files.filterMap id).flatMap MDoc.programmes

/-- First example input document of the merge-dedup test: it declares
`<channel id="X">` (payload 1) and two programmes. -/
def mdoc1 : MDoc := ⟨[⟨"X".data, 1⟩], [10, 11]⟩

/-- Second example input document: it also declares `<channel id="X">`
(different payload) plus `<channel id="Y">`, and one programme. -/
def mdoc2 : MDoc := ⟨[⟨"X".data, 2⟩, ⟨"Y".data, 3⟩], [12]⟩

/-- Combine two candidate `(rank, element)` entries, keeping the left one
unless the right one has a strictly greater rank (the replacement rule of
the `best` dict). -/
def combineBest (a b : Option (Nat × SChan)) : Option (Nat × SChan) :=
  match a, b with
  | none, b => b
  | some a, none => some a
  | some a, some b => if a.1 < b.1 then some b else some a

/-- The specification of the `best` entry for canonical key `k`: scanning
the channel list front to back, keep the current element unless a later
one has a strictly greater quality rank (so the first element attaining
the maximal rank wins). -/
def firstBest (k : PyStr) : List SChan → Option (Nat × SChan)
  | [] => none
  | c :: cs =>
    if canonical_id c.xmltv_id = k then
      combineBest (some (quality_rank c.xmltv_id, c)) (firstBest k cs)
    else firstBest k cs

/-! ## Store lemmas -/

/-- The two example programs of the spec's now/next test. -/
def progA : ProgRec := ⟨"X".data, 100, 200, "A".data, []⟩

/-- The second example program. -/
def progB : ProgRec := ⟨"X".data, 200, 300, "B".data, []⟩

theorem pickMaxStart_eq_none_iff (l : List ProgRec) :
    pickMaxStart l = none ↔ l = [] := by
  cases l with
  | nil => simp [pickMaxStart]
  | cons r rs =>
    simp only [pickMaxStart]
    rcases pickMaxStart rs with _ | b <;> simp only [] <;> [skip; split] <;> simp

theorem pickMaxStart_spec (l : List ProgRec) :
    ∀ b, pickMaxStart l = some b → b ∈ l ∧ ∀ r ∈ l, r.start_ts ≤ b.start_ts := by
  induction l with
  | nil => intro b h; simp [pickMaxStart] at h
  | cons r rs ih =>
    intro b h
    simp only [pickMaxStart] at h
    rcases hrs : pickMaxStart rs with _ | c <;> rw [hrs] at h <;> simp only [] at h
    · injection h with h
      subst h
      have : rs = [] := (pickMaxStart_eq_none_iff rs).mp hrs
      subst this
      simp
    · obtain ⟨hc, hall⟩ := ih c hrs
      by_cases hlt : r.start_ts < c.start_ts
      · rw [if_pos hlt] at h
        injection h with h
        subst h
        refine ⟨List.mem_cons_of_mem _ hc, ?_⟩
        intro x hx
        rcases List.mem_cons.mp hx with hx | hx
        · subst hx; omega
        · exact hall x hx
      · rw [if_neg hlt] at h
        injection h with h
        subst h
        refine ⟨List.mem_cons_self _ _, ?_⟩
        intro x hx
        rcases List.mem_cons.mp hx with hx | hx
        · subst hx; omega
        · have := hall x hx; omega

theorem pickMinStart_eq_none_iff (l : List ProgRec) :
    pickMinStart l = none ↔ l = [] := by
  cases l with
  | nil => simp [pickMinStart]
  | cons r rs =>
    simp only [pickMinStart]
    rcases pickMinStart rs with _ | b <;> simp only [] <;> [skip; split] <;> simp

theorem pickMinStart_spec (l : List ProgRec) :
    ∀ b, pickMinStart l = some b → b ∈ l ∧ ∀ r ∈ l, b.start_ts ≤ r.start_ts := by
  induction l with
  | nil => intro b h; simp [pickMinStart] at h
  | cons r rs ih =>
    intro b h
    simp only [pickMinStart] at h
    rcases hrs : pickMinStart rs with _ | c <;> rw [hrs] at h <;> simp only [] at h
    · injection h with h
      subst h
      have : rs = [] := (pickMinStart_eq_none_iff rs).mp hrs
      subst this
      simp
    · obtain ⟨hc, hall⟩ := ih c hrs
      by_cases hlt : c.start_ts < r.start_ts
      · rw [if_pos hlt] at h
        injection h with h
        subst h
        refine ⟨List.mem_cons_of_mem _ hc, ?_⟩
        intro x hx
        rcases List.mem_cons.mp hx with hx | hx
        · subst hx; omega
        · exact hall x hx
      · rw [if_neg hlt] at h
        injection h with h
        subst h
        refine ⟨List.mem_cons_self _ _, ?_⟩
        intro x hx
        rcases List.mem_cons.mp hx with hx | hx
        · subst hx; omega
        · have := hall x hx; omega

theorem upsertLoop_eq (ps : List ProgRec) :
    ∀ rows buf chunk, upsertLoop rows buf chunk ps = rows ++ buf ++ ps := by
  induction ps with
  | nil => intro rows buf chunk; simp [upsertLoop]
  | cons p ps ih =>
    intro rows buf chunk
    simp only [upsertLoop]
    split
    · rw [ih]; simp
    · rw [ih]; simp

/-- C6: `upsert_epg_programs` inserts exactly the given records for every
chunk size (the final partial batch included): the resulting table is the
old rows followed by the inserted records, so any two chunk sizes (5000
and 1 in particular) give the same rows, in the same order, with nothing
dropped or duplicated at chunk boundaries. -/
theorem C6_upsert_chunking_equivalence :
    (∀ rows progs chunk, upsert_epg_programs rows progs chunk = rows ++ progs) ∧
    (∀ rows progs c1 c2,
      upsert_epg_programs rows progs c1 = upsert_epg_programs rows progs c2) ∧
    upsert_epg_programs [] [progA, progB] 5000 =
      upsert_epg_programs [] [progA, progB] 1 := by
  have h : ∀ rows progs chunk,
      upsert_epg_programs rows progs chunk = rows ++ progs := by
    intro rows progs chunk
    unfold upsert_epg_programs
    rw [upsertLoop_eq]
    simp
  exact ⟨h, fun rows progs c1 c2 => by rw [h, h], by rw [h, h]⟩

/-- C1: `get_now_next` returns as current a stored row of the queried
tvg-id with `start_ts ≤ now_ts < stop_ts` whose `start_ts` is maximal
among such rows (`none` exactly when no row qualifies), and as next a
stored row with `now_ts < start_ts` of minimal `start_ts` (`none` exactly
when no row qualifies); with exactly the rows (X,100,200,A) and
(X,200,300,B) stored, the query at 150 returns (A, B) and the query at
250 returns (B, none). -/
theorem C1_get_now_next_correct :
    (∀ rows tvg now, (get_now_next rows tvg now).1 = none ↔
      ∀ r ∈ rows, ¬ (r.tvg_id = tvg ∧ r.start_ts ≤ now ∧ now < r.stop_ts)) ∧
    (∀ rows tvg now b, (get_now_next rows tvg now).1 = some b →
      b ∈ rows ∧ (b.tvg_id = tvg ∧ b.start_ts ≤ now ∧ now < b.stop_ts) ∧
      ∀ r ∈ rows, r.tvg_id = tvg → r.start_ts ≤ now → now < r.stop_ts →
        r.start_ts ≤ b.start_ts) ∧
    (∀ rows tvg now, (get_now_next rows tvg now).2 = none ↔
      ∀ r ∈ rows, ¬ (r.tvg_id = tvg ∧ now < r.start_ts)) ∧
    (∀ rows tvg now b, (get_now_next rows tvg now).2 = some b →
      b ∈ rows ∧ (b.tvg_id = tvg ∧ now < b.start_ts) ∧
      ∀ r ∈ rows, r.tvg_id = tvg → now < r.start_ts →
        b.start_ts ≤ r.start_ts) ∧
    (get_now_next (upsert_epg_programs [] [progA, progB] 5000) "X".data 150 =
      (some progA, some progB) ∧
     get_now_next (upsert_epg_programs [] [progA, progB] 5000) "X".data 250 =
      (some progB, none)) := by
  refine ⟨?_, ?_, ?_, ?_, by decide, by decide⟩
  · intro rows tvg now
    unfold get_now_next
    rw [pickMaxStart_eq_none_iff, List.filter_eq_nil_iff]
    simp [nowCond]
  · intro rows tvg now b h
    unfold get_now_next at h
    obtain ⟨hmem, hmax⟩ := pickMaxStart_spec _ _ h
    have hb := List.mem_filter.mp hmem
    have hbc : b.tvg_id = tvg ∧ b.start_ts ≤ now ∧ now < b.stop_ts := by
      have := hb.2
      simpa [nowCond] using this
    refine ⟨hb.1, hbc, ?_⟩
    intro r hr h1 h2 h3
    exact hmax r (List.mem_filter.mpr ⟨hr, by simp [nowCond, h1, h2, h3]⟩)
  · intro rows tvg now
    unfold get_now_next
    rw [pickMinStart_eq_none_iff, List.filter_eq_nil_iff]
    simp [nextCond]
  · intro rows tvg now b h
    unfold get_now_next at h
    obtain ⟨hmem, hmin⟩ := pickMinStart_spec _ _ h
    have hb := List.mem_filter.mp hmem
    have hbc : b.tvg_id = tvg ∧ now < b.start_ts := by
      have := hb.2
      simpa [nextCond] using this
    refine ⟨hb.1, hbc, ?_⟩
    intro r hr h1 h2
    exact hmin r (List.mem_filter.mpr ⟨hr, by simp [nextCond, h1, h2]⟩)

/-! ## Character-level lemmas for canonicalization -/

theorem char_ofNat_toNat {n : Nat} (h : n < 55296) : (Char.ofNat n).toNat = n := by
  have hv : n.isValidChar := Or.inl h
  simp [Char.ofNat, hv, Char.ofNatAux, Char.toNat, UInt32.ofNat', UInt32.toNat]

theorem char_eq_iff_toNat {c d : Char} : c = d ↔ c.toNat = d.toNat := by
  constructor
  · rintro rfl; rfl
  · intro h
    have hc := Char.ofNat_toNat c
    have hd := Char.ofNat_toNat d
    rw [← hc, ← hd, h]

theorem toLower_toNat (c : Char) :
    c.toLower.toNat = if 65 ≤ c.toNat ∧ c.toNat ≤ 90 then c.toNat + 32 else c.toNat := by
  simp only [Char.toLower, ge_iff_le]
  split
  · next h => exact char_ofNat_toNat (by omega)
  · rfl

theorem isPyWs_toLower (c : Char) : isPyWs c.toLower = isPyWs c := by
  simp only [isPyWs, toLower_toNat c]
  split
  · apply Bool.eq_iff_iff.mpr
    simp only [Bool.or_eq_true, decide_eq_true_eq]
    omega
  · rfl

theorem toLower_ne_at (c : Char) : (decide (c.toLower ≠ '@')) = decide (c ≠ '@') := by
  rw [decide_eq_decide, ne_eq, ne_eq, char_eq_iff_toNat, char_eq_iff_toNat]
  have h64 : ('@' : Char).toNat = 64 := rfl
  rw [h64, toLower_toNat]
  split <;> omega

theorem toLower_idem (c : Char) : c.toLower.toLower = c.toLower := by
  rw [char_eq_iff_toNat, toLower_toNat, toLower_toNat c]
  split_ifs <;> omega

/-! ## String-level lemmas for canonicalization (C7) -/

theorem dropWhile_append_of_neg {p : Char → Bool} {a : Char} (h : p a = false)
    (u w : List Char) : (u ++ a :: w).dropWhile p = u.dropWhile p ++ a :: w := by
  induction u with
  | nil => simp [List.dropWhile_cons, h]
  | cons c u ih =>
    simp only [List.cons_append, List.dropWhile_cons]
    cases hp : p c <;> simp [ih]

theorem takeWhile_append_of_neg {p : Char → Bool} {a : Char} (h : p a = false)
    (u w : List Char) : (u ++ a :: w).takeWhile p = u.takeWhile p := by
  induction u with
  | nil => simp [List.takeWhile_cons, h]
  | cons c u ih =>
    simp only [List.cons_append, List.takeWhile_cons]
    cases hp : p c <;> simp [ih]

theorem isPyWs_at : isPyWs '@' = false := rfl

theorem lstrip_append_at (u w : PyStr) :
    lstrip (u ++ '@' :: w) = lstrip u ++ '@' :: w :=
  dropWhile_append_of_neg isPyWs_at u w

theorem rstrip_append_at (u w : PyStr) :
    rstrip (u ++ '@' :: w) = u ++ '@' :: rstrip w := by
  unfold rstrip
  rw [show (u ++ '@' :: w).reverse = w.reverse ++ '@' :: u.reverse by simp,
    dropWhile_append_of_neg isPyWs_at]
  simp

theorem strip_append_at (u w : PyStr) :
    strip (u ++ '@' :: w) = lstrip u ++ '@' :: rstrip w := by
  unfold strip
  rw [lstrip_append_at, rstrip_append_at]

theorem canonical_append_at (b t : PyStr) :
    canonical_id (b ++ '@' :: t) =
      caseFold (strip ((lstrip b).takeWhile (fun c => c ≠ '@'))) := by
  unfold canonical_id
  rw [strip_append_at]
  rw [if_neg (by simp)]
  rw [takeWhile_append_of_neg (by simp)]

theorem isPyWs_comp_toLower : (isPyWs ∘ Char.toLower) = isPyWs := by
  funext c
  exact isPyWs_toLower c

theorem atPred_comp_toLower :
    ((fun c : Char => decide (c ≠ '@')) ∘ Char.toLower) =
      (fun c : Char => decide (c ≠ '@')) := by
  funext c
  exact toLower_ne_at c

theorem lstrip_caseFold (s : PyStr) : lstrip (caseFold s) = caseFold (lstrip s) := by
  unfold lstrip caseFold
  rw [List.dropWhile_map, isPyWs_comp_toLower]

theorem rstrip_caseFold (s : PyStr) : rstrip (caseFold s) = caseFold (rstrip s) := by
  unfold rstrip caseFold
  rw [← List.map_reverse, List.dropWhile_map, isPyWs_comp_toLower, List.map_reverse]

theorem strip_caseFold (s : PyStr) : strip (caseFold s) = caseFold (strip s) := by
  unfold strip
  rw [lstrip_caseFold, rstrip_caseFold]

theorem takeWhile_at_caseFold (s : PyStr) :
    (caseFold s).takeWhile (fun c => c ≠ '@') =
      caseFold (s.takeWhile (fun c => c ≠ '@')) := by
  unfold caseFold
  rw [List.takeWhile_map]
  congr 1
  rw [atPred_comp_toLower]

theorem caseFold_caseFold (s : PyStr) : caseFold (caseFold s) = caseFold s := by
  unfold caseFold
  rw [List.map_map]
  congr 1
  funext c
  exact toLower_idem c

theorem canonical_caseFold (s : PyStr) : canonical_id (caseFold s) = canonical_id s := by
  unfold canonical_id
  rw [strip_caseFold]
  by_cases h : strip s = []
  · rw [h]
    simp [caseFold]
  · rw [if_neg (by simp [caseFold, h]), if_neg h]
    rw [takeWhile_at_caseFold, strip_caseFold, caseFold_caseFold]

/-- C7: canonicalization ignores everything from the first `@` separator
on (two ids sharing the prefix before an explicit `@` get the same
canonical key whatever their suffixes) and is case-insensitive (ids equal
after case-folding get the same canonical key); in particular
`canonical_id "ABC.fr@HD" = canonical_id "abc.fr@SD" = "abc.fr"`, so a
wanted id `ABC.fr@HD` is satisfied by a source declaring `abc.fr@SD`. -/
theorem C7_canonical_equivalence :
    (∀ b t u : PyStr, canonical_id (b ++ '@' :: t) = canonical_id (b ++ '@' :: u)) ∧
    (∀ s t : PyStr, caseFold s = caseFold t → canonical_id s = canonical_id t) ∧
    canonical_id "ABC.fr@HD".data = canonical_id "abc.fr@SD".data ∧
    canonical_id "ABC.fr@HD".data = "abc.fr".data := by
  refine ⟨?_, ?_, by decide, by decide⟩
  · intro b t u
    rw [canonical_append_at, canonical_append_at]
  · intro s t h
    rw [← canonical_caseFold s, ← canonical_caseFold t, h]

/-! ## XMLTV decoder lemmas (C3, C4, C5) -/

theorem iter_programs_ok_eq_filterMap (doc : List PyElem) :
    ∀ recs, iter_programs doc = (recs, none) → recs = doc.filterMap yieldOf := by
  induction doc with
  | nil =>
    intro recs h
    simp [iter_programs] at h
    simp [h]
  | cons e es ih =>
    intro recs h
    rcases hrest : iter_programs es with ⟨recs2, err2⟩
    cases hst : parse_xmltv_dt e.start with
    | error u =>
      simp only [iter_programs, hst] at h
      simp at h
    | ok st =>
      cases hsp : parse_xmltv_dt e.stop with
      | error u =>
        simp only [iter_programs, hst, hsp] at h
        simp at h
      | ok sp =>
        simp only [iter_programs, hst, hsp, hrest] at h
        by_cases hc : strip e.channel ≠ [] ∧ st ≠ 0 ∧ sp ≠ 0
        · rw [if_pos hc] at h
          rw [Prod.mk.injEq] at h
          obtain ⟨h1, h2⟩ := h
          subst h2
          have := ih recs2 hrest
          rw [List.filterMap_cons]
          have hy : yieldOf e = some ⟨strip e.channel, st, sp, childText e.title, childText e.desc⟩ := by
            unfold yieldOf
            rw [hst, hsp]
            simp only []
            rw [if_pos hc]
          rw [hy, ← h1, this]
        · rw [if_neg hc] at h
          rw [Prod.mk.injEq] at h
          obtain ⟨h1, h2⟩ := h
          subst h2
          have := ih recs2 hrest
          rw [List.filterMap_cons]
          have hy : yieldOf e = none := by
            unfold yieldOf
            rw [hst, hsp]
            simp only []
            rw [if_neg hc]
          rw [hy, ← h1, this]

theorem iter_programs_fields_nonzero (doc : List PyElem) :
    ∀ r ∈ (iter_programs doc).1, r.tvg_id ≠ [] ∧ r.start_ts ≠ 0 ∧ r.stop_ts ≠ 0 := by
  induction doc with
  | nil => simp [iter_programs]
  | cons e es ih =>
    intro r hr
    cases hst : parse_xmltv_dt e.start with
    | error u =>
      simp only [iter_programs, hst] at hr
      simp at hr
    | ok st =>
      cases hsp : parse_xmltv_dt e.stop with
      | error u =>
        simp only [iter_programs, hst, hsp] at hr
        simp at hr
      | ok sp =>
        simp only [iter_programs, hst, hsp] at hr
        by_cases hc : strip e.channel ≠ [] ∧ st ≠ 0 ∧ sp ≠ 0
        · rw [if_pos hc] at hr
          rcases List.mem_cons.mp hr with hx | hx
          · subst hx
            exact hc
          · exact ih r hx
        · rw [if_neg hc] at hr
          exact ih r hr

theorem parse_xmltv_dt_no_prefix {s : PyStr}
    (h : ¬ (14 ≤ (strip s).length ∧ ((strip s).take 14).all isAsciiDigit = true)) :
    parse_xmltv_dt s = .ok 0 := by
  unfold parse_xmltv_dt
  by_cases h0 : s = []
  · rw [if_pos h0]
  · rw [if_neg h0, if_pos h]

/-- C3 (amended): `parse_datetime` returns 0, without raising, for every
input whose stripped form does not begin with 14 ASCII digits — in
particular for `""` and `"not-a-date"`; but when the 14-digit prefix is
present and is not a valid calendar instant, the code raises `ValueError`
(month 13 here) instead of returning an integer. -/
theorem C3_parse_datetime_safety :
    (∀ s : PyStr, ¬ (14 ≤ (strip s).length ∧ ((strip s).take 14).all isAsciiDigit = true) →
      parse_xmltv_dt s = .ok 0) ∧
    parse_xmltv_dt "".data = .ok 0 ∧
    parse_xmltv_dt "not-a-date".data = .ok 0 ∧
    parse_xmltv_dt "20241301000000".data = .error () := by
  refine ⟨fun s h => parse_xmltv_dt_no_prefix h, by decide, by decide, by decide⟩

/-- C3 (counterexample): on the input `"20241301000000"` (month 13, a
14-digit prefix that is not a valid date-time) `parse_datetime` raises
`ValueError` — it does not return an integer — refuting "for every input
string, returns an integer and never raises". -/
theorem C3_parse_datetime_counterexample :
    parse_xmltv_dt "20241301000000".data = .error () ∧
    ∀ n : Int, parse_xmltv_dt "20241301000000".data ≠ .ok n := by
  refine ⟨by decide, ?_⟩
  intro n h
  have he : parse_xmltv_dt "20241301000000".data = .error () := by decide
  rw [he] at h
  exact Except.noConfusion h

/-- C4 (amended): every record yielded by `iter_programs` has a non-empty
tvg-id and non-zero start and stop timestamps; but the code does not
require `stop_ts > start_ts`: a programme whose stop instant equals its
start instant is retained. -/
theorem C4_retained_records_nonzero :
    (∀ doc : List PyElem, ∀ r ∈ (iter_programs doc).1,
      r.tvg_id ≠ [] ∧ r.start_ts ≠ 0 ∧ r.stop_ts ≠ 0) ∧
    iter_programs [elemEqStartStop] = ([recEqStartStop], none) ∧
    recEqStartStop.stop_ts = recEqStartStop.start_ts := by
  exact ⟨iter_programs_fields_nonzero, by decide, by decide⟩

/-- C4 (counterexample): a document with one programme whose start and
stop are both `20240101060000` yields that record, and its stop instant
is not strictly greater than its start instant. -/
theorem C4_stop_gt_start_counterexample :
    iter_programs [elemEqStartStop] = ([recEqStartStop], none) ∧
    ¬ recEqStartStop.stop_ts > recEqStartStop.start_ts := by
  exact ⟨by decide, by decide⟩

/-- C5 (amended): on a document none of whose programme timestamps make
the datetime parser raise, `iter_programs` yields exactly one record per
element whose trimmed channel is non-empty and whose start and stop both
parse to non-zero timestamps (elements failing this are silently
dropped, a missing title or desc child giving the empty string); in
particular one well-formed programme next to one missing its channel
attribute yields exactly the well-formed record.  (When a timestamp does
raise, the iteration aborts instead — see the counterexample.) -/
theorem C5_yield_condition :
    (∀ doc recs, iter_programs doc = (recs, none) → recs = doc.filterMap yieldOf) ∧
    (∀ e st sp, parse_xmltv_dt e.start = .ok st → parse_xmltv_dt e.stop = .ok sp →
      (yieldOf e = none ↔ ¬ (strip e.channel ≠ [] ∧ st ≠ 0 ∧ sp ≠ 0))) ∧
    iter_programs [elemGood, elemNoChannel] = ([recGood], none) := by
  refine ⟨fun doc => iter_programs_ok_eq_filterMap doc, ?_, by decide⟩
  intro e st sp hst hsp
  unfold yieldOf
  rw [hst, hsp]
  simp only []
  by_cases hc : strip e.channel ≠ [] ∧ st ≠ 0 ∧ sp ≠ 0
  · rw [if_pos hc]
    simp [hc]
  · rw [if_neg hc]
    simp [hc]

/-- C5 (counterexample): in the document `[elemBadCalendar, elemGood]`
the element `elemGood` satisfies the claimed yield condition (non-empty
channel, both timestamps parse to non-zero values), yet `iter_programs`
yields no record at all: the earlier element's invalid-calendar
timestamp raises and aborts the iteration rather than being silently
dropped. -/
theorem C5_silent_drop_counterexample :
    iter_programs [elemBadCalendar, elemGood] = ([], some ()) ∧
    yieldOf elemGood = some recGood ∧
    strip elemGood.channel ≠ [] ∧
    parse_xmltv_dt elemGood.start = .ok 1704088800 ∧
    parse_xmltv_dt elemGood.stop = .ok 1704092400 := by
  exact ⟨by decide, by decide, by decide, by decide, by decide⟩

/-! ## Greedy selector lemmas (C2) -/

theorem bestStep_aux_ge (cov : Coverage) (selected : List String) (remaining : List PyStr) :
    ∀ (cands : List String) (acc : Nat × String),
      acc.1 ≤ (cands.foldl
        (fun bg s =>
          if selected.contains s then bg
          else if bg.1 < gainOf cov s remaining then (gainOf cov s remaining, s)
          else bg) acc).1 := by
  intro cands
  induction cands with
  | nil => intro acc; exact Nat.le_refl _
  | cons s cs ih =>
    intro acc
    simp only [List.foldl_cons]
    refine Nat.le_trans ?_ (ih _)
    split
    · exact Nat.le_refl _
    · split
      · next h => exact Nat.le_of_lt h
      · exact Nat.le_refl _

theorem bestStep_aux_covers (cov : Coverage) (selected : List String) (remaining : List PyStr) :
    ∀ (cands : List String) (acc : Nat × String) (s : String), s ∈ cands →
      selected.contains s = false →
      gainOf cov s remaining ≤ (cands.foldl
        (fun bg s =>
          if selected.contains s then bg
          else if bg.1 < gainOf cov s remaining then (gainOf cov s remaining, s)
          else bg) acc).1 := by
  intro cands
  induction cands with
  | nil => intro acc s hs; exact absurd hs (List.not_mem_nil s)
  | cons c cs ih =>
    intro acc s hs hsel
    simp only [List.foldl_cons]
    rcases List.mem_cons.mp hs with hx | hx
    · subst hx
      refine Nat.le_trans ?_ (bestStep_aux_ge cov selected remaining cs _)
      rw [hsel]
      simp only [Bool.false_eq_true, if_false]
      split
      · exact Nat.le_refl _
      · next h => omega
    · exact ih _ s hx hsel

theorem bestStep_aux_picks (cov : Coverage) (selected : List String) (remaining : List PyStr) :
    ∀ (cands : List String) (acc : Nat × String),
      (cands.foldl
        (fun bg s =>
          if selected.contains s then bg
          else if bg.1 < gainOf cov s remaining then (gainOf cov s remaining, s)
          else bg) acc) = acc ∨
      ((cands.foldl
        (fun bg s =>
          if selected.contains s then bg
          else if bg.1 < gainOf cov s remaining then (gainOf cov s remaining, s)
          else bg) acc).2 ∈ cands ∧
       selected.contains ((cands.foldl
        (fun bg s =>
          if selected.contains s then bg
          else if bg.1 < gainOf cov s remaining then (gainOf cov s remaining, s)
          else bg) acc).2) = false) := by
  intro cands
  induction cands with
  | nil => intro acc; exact Or.inl rfl
  | cons c cs ih =>
    intro acc
    simp only [List.foldl_cons]
    by_cases hc : selected.contains c
    · rw [if_pos hc]
      rcases ih acc with h | h
      · exact Or.inl h
      · exact Or.inr ⟨List.mem_cons_of_mem _ h.1, h.2⟩
    · rw [if_neg hc]
      by_cases hg : acc.1 < gainOf cov c remaining
      · rw [if_pos hg]
        rcases ih (gainOf cov c remaining, c) with h | h
        · rw [h]
          exact Or.inr ⟨List.mem_cons_self _ _, by simpa using hc⟩
        · exact Or.inr ⟨List.mem_cons_of_mem _ h.1, h.2⟩
      · rw [if_neg hg]
        rcases ih acc with h | h
        · exact Or.inl h
        · exact Or.inr ⟨List.mem_cons_of_mem _ h.1, h.2⟩

theorem bestStep_zero_gains {cov : Coverage} {selected : List String}
    {remaining : List PyStr} {cands : List String}
    (h : (bestStep cov selected remaining cands).1 = 0) :
    ∀ s ∈ cands, selected.contains s = false → gainOf cov s remaining = 0 := by
  intro s hs hsel
  have := bestStep_aux_covers cov selected remaining cands (0, "") s hs hsel
  unfold bestStep at h
  omega

theorem bestStep_picks {cov : Coverage} {selected : List String}
    {remaining : List PyStr} {cands : List String}
    (h : (bestStep cov selected remaining cands).1 ≠ 0) :
    (bestStep cov selected remaining cands).2 ∈ cands ∧
      selected.contains ((bestStep cov selected remaining cands).2) = false := by
  rcases bestStep_aux_picks cov selected remaining cands (0, "") with hp | hp
  · unfold bestStep at h
    rw [hp] at h
    exact absurd rfl h
  · exact hp

theorem greedyLoop_length_le (cov : Coverage) (cands : List String) :
    ∀ (fuel : Nat) (sel : List String) (rem : List PyStr),
      (greedyLoop cov cands fuel sel rem).1.length ≤ sel.length + fuel := by
  intro fuel
  induction fuel with
  | zero => intro sel rem; simp [greedyLoop]
  | succ fuel ih =>
    intro sel rem
    simp only [greedyLoop]
    split
    · simp
    · split
      · simp
      · refine Nat.le_trans (ih _ _) ?_
        simp
        omega

theorem greedyLoop_stops (cov : Coverage) (cands : List String) :
    ∀ (fuel : Nat) (sel : List String) (rem : List PyStr),
      (greedyLoop cov cands fuel sel rem).2 = [] ∨
      (greedyLoop cov cands fuel sel rem).1.length = sel.length + fuel ∨
      (∀ s ∈ cands, (greedyLoop cov cands fuel sel rem).1.contains s = false →
        gainOf cov s (greedyLoop cov cands fuel sel rem).2 = 0) := by
  intro fuel
  induction fuel with
  | zero =>
    intro sel rem
    right; left
    simp [greedyLoop]
  | succ fuel ih =>
    intro sel rem
    by_cases hrem : rem = []
    · left
      simp [greedyLoop, hrem]
    · by_cases hbest : (bestStep cov sel rem cands).1 = 0
      · right; right
        intro s hs hsel
        have hloop : greedyLoop cov cands (fuel + 1) sel rem = (sel, rem) := by
          simp [greedyLoop, hrem, hbest]
        rw [hloop] at hsel ⊢
        exact bestStep_zero_gains hbest s hs hsel
      · have hloop : greedyLoop cov cands (fuel + 1) sel rem =
            greedyLoop cov cands fuel (sel ++ [(bestStep cov sel rem cands).2])
              (rem.filter (fun k => ¬ (covOf cov (bestStep cov sel rem cands).2).contains k)) := by
          simp [greedyLoop, hrem, hbest]
        rw [hloop]
        rcases ih (sel ++ [(bestStep cov sel rem cands).2])
            (rem.filter (fun k => ¬ (covOf cov (bestStep cov sel rem cands).2).contains k)) with
          h | h | h
        · exact Or.inl h
        · right; left
          rw [h]
          simp
          omega
        · exact Or.inr (Or.inr h)

theorem greedyLoop_nodup (cov : Coverage) (cands : List String) :
    ∀ (fuel : Nat) (sel : List String) (rem : List PyStr), sel.Nodup →
      (greedyLoop cov cands fuel sel rem).1.Nodup := by
  intro fuel
  induction fuel with
  | zero => intro sel rem h; simpa [greedyLoop] using h
  | succ fuel ih =>
    intro sel rem h
    simp only [greedyLoop]
    split
    · exact h
    · split
      · exact h
      · next hbest =>
        refine ih _ _ ?_
        have hp := bestStep_picks hbest
        simp [List.nodup_append, h]
        simpa using hp.2

/-- C2: the selector is the greedy set-cover loop: it never selects more
sites than the budget, never selects a site twice, and stops only when
the remaining set is empty, the budget is reached, or no unselected
candidate has positive gain against the remainder; on the spec's example
(wanted {a,b,c,d}, S1→{a,b}, S2→{b,c}, S3→{d}, budget 2) it covers
exactly 3 of the 4 wanted keys whatever the candidate (tie-break)
order. -/
theorem C2_greedy_set_cover :
    (∀ cov cands wanted budget,
      (select_sites cov cands wanted budget).1.length ≤ budget) ∧
    (∀ cov cands wanted budget,
      (select_sites cov cands wanted budget).2 = [] ∨
      (select_sites cov cands wanted budget).1.length = budget ∨
      (∀ s ∈ cands, (select_sites cov cands wanted budget).1.contains s = false →
        gainOf cov s (select_sites cov cands wanted budget).2 = 0)) ∧
    (∀ cov cands wanted budget, (select_sites cov cands wanted budget).1.Nodup) ∧
    (∀ cands ∈ candOrders,
      wantedExample.length - (select_sites covExample cands wantedExample 2).2.length = 3) := by
  refine ⟨?_, ?_, ?_, by decide⟩
  · intro cov cands wanted budget
    have := greedyLoop_length_le cov cands budget [] wanted
    simpa [select_sites] using this
  · intro cov cands wanted budget
    have := greedyLoop_stops cov cands budget [] wanted
    simpa [select_sites] using this
  · intro cov cands wanted budget
    exact greedyLoop_nodup cov cands budget [] wanted List.nodup_nil

/-! ## Association list and wanted-map lemmas (C10) -/

theorem lookup_append_or {β : Type} (k : PyStr) (l1 l2 : List (PyStr × β)) :
    (l1 ++ l2).lookup k = (l1.lookup k).or (l2.lookup k) := by
  induction l1 with
  | nil => simp [List.lookup]
  | cons p l1 ih =>
    rcases p with ⟨kp, v⟩
    simp only [List.cons_append, List.lookup]
    cases h : k == kp
    · simpa [h] using ih
    · simp [h]

theorem lookup_singleton_self {β : Type} (k : PyStr) (v : β) :
    ([(k, v)] : List (PyStr × β)).lookup k = some v := by
  simp [List.lookup]

theorem lookup_singleton_ne {β : Type} {k k' : PyStr} (h : k ≠ k') (v : β) :
    ([(k', v)] : List (PyStr × β)).lookup k = none := by
  have hb : (k == k') = false := by
    cases hkk : k == k'
    · rfl
    · exact absurd (eq_of_beq hkk) h
  simp [List.lookup, hb]

theorem lookup_eq_none_iff_keys {β : Type} (k : PyStr) (l : List (PyStr × β)) :
    l.lookup k = none ↔ k ∉ l.map Prod.fst := by
  induction l with
  | nil => simp [List.lookup]
  | cons p l ih =>
    rcases p with ⟨kp, v⟩
    simp only [List.lookup, List.map_cons, List.mem_cons]
    cases h : k == kp
    · have hne : k ≠ kp := by
        intro he
        rw [he] at h
        simp at h
      simp only []
      rw [ih]
      constructor
      · intro hk hor
        rcases hor with hor | hor
        · exact hne hor
        · exact hk hor
      · intro hk hm
        exact hk (Or.inr hm)
    · have he : k = kp := eq_of_beq h
      constructor
      · intro hsome
        exact Option.noConfusion hsome
      · intro hk
        exact absurd (Or.inl he) hk

theorem canonical_id_nil : canonical_id ([] : PyStr) = [] := rfl

theorem beq_false_of_ne {k k' : PyStr} (h : k ≠ k') : (k == k') = false := by
  cases hb : k == k'
  · rfl
  · exact absurd (eq_of_beq hb) h

theorem wantedStep_lookup_hit {acc : List (PyStr × PyStr)} {t k : PyStr}
    (hk : k ≠ []) (hm : canonical_id (strip t) = k) :
    (wantedStep acc t).lookup k = (acc.lookup k).or (some (strip t)) := by
  have hne : strip t ≠ [] := by
    intro h0
    rw [h0, canonical_id_nil] at hm
    exact hk hm.symm
  simp only [wantedStep]
  rw [if_neg hne, hm]
  by_cases hl : acc.lookup k = none
  · rw [if_pos ⟨hk, hl⟩, lookup_append_or, hl, lookup_singleton_self]
  · rw [if_neg (fun hc => hl hc.2)]
    rcases ho : acc.lookup k with _ | v
    · exact absurd ho hl
    · simp [Option.or]

theorem wantedStep_lookup_miss {acc : List (PyStr × PyStr)} {t k : PyStr}
    (hm : canonical_id (strip t) ≠ k) :
    (wantedStep acc t).lookup k = acc.lookup k := by
  simp only [wantedStep]
  by_cases h0 : strip t = []
  · rw [if_pos h0]
  · rw [if_neg h0]
    by_cases hcond : canonical_id (strip t) ≠ [] ∧ acc.lookup (canonical_id (strip t)) = none
    · rw [if_pos hcond, lookup_append_or, lookup_singleton_ne (Ne.symm hm)]
      cases acc.lookup k <;> simp [Option.or]
    · rw [if_neg hcond]

theorem wanted_foldl_lookup {k : PyStr} (hk : k ≠ []) :
    ∀ (ts : List PyStr) (acc : List (PyStr × PyStr)),
      (ts.foldl wantedStep acc).lookup k =
        (acc.lookup k).or ((ts.map strip).find? (fun t => canonical_id t == k)) := by
  intro ts
  induction ts with
  | nil =>
    intro acc
    simp [Option.or]
    cases acc.lookup k <;> simp [Option.or]
  | cons t ts ih =>
    intro acc
    simp only [List.foldl_cons, List.map_cons, List.find?_cons]
    by_cases hm : canonical_id (strip t) = k
    · have hpred : (canonical_id (strip t) == k) = true := beq_iff_eq.mpr hm
      rw [ih, wantedStep_lookup_hit hk hm, hpred]
      cases acc.lookup k <;> simp [Option.or]
    · have hpred : (canonical_id (strip t) == k) = false := beq_false_of_ne hm
      rw [ih, wantedStep_lookup_miss hm, hpred]

theorem wanted_foldl_keys_nodup :
    ∀ (ts : List PyStr) (acc : List (PyStr × PyStr)),
      (acc.map Prod.fst).Nodup → ((ts.foldl wantedStep acc).map Prod.fst).Nodup := by
  intro ts
  induction ts with
  | nil => intro acc h; simpa using h
  | cons t ts ih =>
    intro acc h
    simp only [List.foldl_cons]
    apply ih
    simp only [wantedStep]
    by_cases h0 : strip t = []
    · rw [if_pos h0]; exact h
    · rw [if_neg h0]
      by_cases hcond : canonical_id (strip t) ≠ [] ∧ acc.lookup (canonical_id (strip t)) = none
      · rw [if_pos hcond, List.map_append]
        simp only [List.map_cons, List.map_nil]
        rw [List.nodup_append]
        refine ⟨h, List.nodup_singleton _, ?_⟩
        intro a ha hb
        simp at hb
        subst hb
        exact (lookup_eq_none_iff_keys _ _).mp hcond.2 ha
      · rw [if_neg hcond]; exact h

theorem wanted_map_ignore (ts : List PyStr) (t : PyStr)
    (h : canonical_id (strip t) = [] ∨
      canonical_id (strip t) ∈ (wanted_map ts).map Prod.fst) :
    wanted_map (ts ++ [t]) = wanted_map ts := by
  unfold wanted_map
  rw [List.foldl_append]
  simp only [List.foldl_cons, List.foldl_nil]
  simp only [wantedStep]
  by_cases h0 : strip t = []
  · rw [if_pos h0]
  · rw [if_neg h0]
    rcases h with h | h
    · rw [if_neg (fun hc => hc.1 h)]
    · have hne : (ts.foldl wantedStep []).lookup (canonical_id (strip t)) ≠ none := by
        intro hn
        rw [lookup_eq_none_iff_keys] at hn
        exact hn h
      rw [if_neg (fun hc => hne hc.2)]

/-- C10: several wanted tvg-ids canonicalizing to one key collapse to a
single entry of the wanted map whose stored original is the first
(stripped) non-empty id in input order; ids that are empty, whitespace
only, or canonicalize to the empty key are ignored and duplicates do not
grow the key set; concretely, `["  ", "A@HD", "a@SD", " ", "B"]` gives
exactly `{a ↦ "A@HD", b ↦ "B"}`. -/
theorem C10_wanted_map_first_wins :
    (∀ ts, ((wanted_map ts).map Prod.fst).Nodup) ∧
    (∀ (ts : List PyStr) (k : PyStr), k ≠ [] →
      (wanted_map ts).lookup k = (ts.map strip).find? (fun t => canonical_id t == k)) ∧
    (∀ ts t, canonical_id (strip t) = [] ∨
        canonical_id (strip t) ∈ (wanted_map ts).map Prod.fst →
      wanted_map (ts ++ [t]) = wanted_map ts) ∧
    wanted_map ["  ".data, "A@HD".data, "a@SD".data, " ".data, "B".data] =
      [("a".data, "A@HD".data), ("b".data, "B".data)] := by
  refine ⟨?_, ?_, wanted_map_ignore, by decide⟩
  · intro ts
    exact wanted_foldl_keys_nodup ts [] (by simp)
  · intro ts k hk
    have := wanted_foldl_lookup hk ts []
    simpa [wanted_map, List.lookup] using this

/-! ## Guide merge lemmas (C8) -/

theorem mergeChan_foldl (chans : List MChan) :
    ∀ (seen : List PyStr) (cs : List MChan),
      chans.foldl mergeChanStep (seen, cs) =
        (seen ++ (dedupeFirst seen chans).map (fun c => strip c.id),
         cs ++ dedupeFirst seen chans) := by
  induction chans with
  | nil => intro seen cs; simp [dedupeFirst]
  | cons c chans ih =>
    intro seen cs
    simp only [List.foldl_cons, dedupeFirst]
    by_cases hd : strip c.id = [] ∨ seen.contains (strip c.id)
    · rw [if_pos hd]
      have hstep : mergeChanStep (seen, cs) c = (seen, cs) := by
        simp only [mergeChanStep]
        rw [if_pos hd]
      rw [hstep, ih]
    · rw [if_neg hd]
      have hstep : mergeChanStep (seen, cs) c =
          (seen ++ [strip c.id], cs ++ [c]) := by
        simp only [mergeChanStep]
        rw [if_neg hd]
      rw [hstep, ih]
      simp

theorem dedupeFirst_append (l1 : List MChan) :
    ∀ (l2 : List MChan) (seen : List PyStr),
      dedupeFirst seen (l1 ++ l2) =
        dedupeFirst seen l1 ++
          dedupeFirst (seen ++ (dedupeFirst seen l1).map (fun c => strip c.id)) l2 := by
  induction l1 with
  | nil => intro l2 seen; simp [dedupeFirst]
  | cons c l1 ih =>
    intro l2 seen
    simp only [List.cons_append, dedupeFirst, List.append_eq]
    by_cases hd : strip c.id = [] ∨ seen.contains (strip c.id)
    · rw [if_pos hd, if_pos hd, ih]
    · rw [if_neg hd, if_neg hd, ih]
      simp

theorem mergeLoop_eq (files : List (Option MDoc)) :
    ∀ (seen : List PyStr) (chans : List MChan) (progs : List Nat),
      mergeLoop seen chans progs files =
        ⟨chans ++ dedupeFirst seen (allChannels files),
         progs ++ allProgrammes files⟩ := by
  induction files with
  | nil =>
    intro seen chans progs
    simp [mergeLoop, allChannels, allProgrammes, dedupeFirst]
  | cons f fs ih =>
    intro seen chans progs
    cases f with
    | none =>
      simp only [mergeLoop]
      rw [ih]
      simp [allChannels, allProgrammes]
    | some d =>
      simp only [mergeLoop]
      rw [mergeChan_foldl, ih]
      have hch : allChannels (some d :: fs) = d.channels ++ allChannels fs := by
        simp [allChannels]
      have hpr : allProgrammes (some d :: fs) = d.programmes ++ allProgrammes fs := by
        simp [allProgrammes]
      rw [hch, hpr, dedupeFirst_append]
      simp

theorem dedupeFirst_nodup (l : List MChan) :
    ∀ seen : List PyStr,
      (((dedupeFirst seen l).map (fun c => strip c.id)).Nodup ∧
       ∀ k ∈ (dedupeFirst seen l).map (fun c => strip c.id), k ∉ seen) := by
  induction l with
  | nil => intro seen; simp [dedupeFirst]
  | cons c l ih =>
    intro seen
    simp only [dedupeFirst]
    by_cases hd : strip c.id = [] ∨ seen.contains (strip c.id)
    · rw [if_pos hd]
      exact ih seen
    · rw [if_neg hd]
      obtain ⟨ihn, ihs⟩ := ih (seen ++ [strip c.id])
      simp only [List.map_cons]
      constructor
      · rw [List.nodup_cons]
        refine ⟨?_, ihn⟩
        intro hmem
        have := ihs _ hmem
        simp at this
      · intro k hk
        rcases List.mem_cons.mp hk with hk | hk
        · subst hk
          intro hks
          exact hd (Or.inr (by simpa using hks))
        · intro hks
          exact ihs k hk (by simp [hks])

theorem dedupeFirst_filter_of_seen (l : List MChan) :
    ∀ (seen : List PyStr) (k : PyStr), k ∈ seen →
      (dedupeFirst seen l).filter (fun c => strip c.id == k) = [] := by
  induction l with
  | nil => intro seen k hk; simp [dedupeFirst]
  | cons c l ih =>
    intro seen k hk
    simp only [dedupeFirst]
    by_cases hd : strip c.id = [] ∨ seen.contains (strip c.id)
    · rw [if_pos hd]
      exact ih seen k hk
    · rw [if_neg hd]
      rw [List.filter_cons]
      have hck : (strip c.id == k) = false := by
        apply beq_false_of_ne
        intro he
        exact hd (Or.inr (by simp [he, hk]))
      rw [hck]
      simp only [Bool.false_eq_true, if_false]
      exact ih (seen ++ [strip c.id]) k (by simp [hk])

theorem dedupeFirst_filter_first (l : List MChan) :
    ∀ (seen : List PyStr) (k : PyStr), k ≠ [] → k ∉ seen →
      (dedupeFirst seen l).filter (fun c => strip c.id == k) =
        (l.find? (fun c => strip c.id == k)).toList := by
  induction l with
  | nil => intro seen k hk hks; simp [dedupeFirst]
  | cons c l ih =>
    intro seen k hk hks
    simp only [dedupeFirst, List.find?_cons]
    by_cases hck : strip c.id = k
    · have hb : (strip c.id == k) = true := beq_iff_eq.mpr hck
      rw [hb]
      have hkeep : ¬ (strip c.id = [] ∨ seen.contains (strip c.id)) := by
        rw [hck]
        rintro (h1 | h2)
        · exact hk h1
        · exact hks (by simpa using h2)
      rw [if_neg hkeep, List.filter_cons, hb]
      simp only [if_true]
      rw [dedupeFirst_filter_of_seen l _ k (by simp [hck])]
      rfl
    · have hb : (strip c.id == k) = false := beq_false_of_ne hck
      rw [hb]
      by_cases hd : strip c.id = [] ∨ seen.contains (strip c.id)
      · rw [if_pos hd]
        exact ih seen k hk hks
      · rw [if_neg hd, List.filter_cons, hb]
        simp only [Bool.false_eq_true, if_false]
        refine ih (seen ++ [strip c.id]) k hk ?_
        simp only [List.mem_append, List.mem_singleton]
        rintro (h | h)
        · exact hks h
        · exact hck h.symm

/-- C8: `merge_xmltv` concatenates every programme of every present
input in input order, skips missing/empty input files, and deduplicates
channels by trimmed id with the first occurrence winning: the output
channel ids are pairwise distinct, and for any id the output's channels
with that id are exactly the first input channel carrying it; two inputs
both declaring `<channel id="X">` yield exactly the first one, while
their programme counts add up. -/
theorem C8_merge_dedup_concat :
    (∀ files, (merge_xmltv files).programmes = allProgrammes files) ∧
    (∀ fs, merge_xmltv (none :: fs) = merge_xmltv fs) ∧
    (∀ files, (((merge_xmltv files).channels).map (fun c => strip c.id)).Nodup) ∧
    (∀ files (k : PyStr), k ≠ [] →
      (merge_xmltv files).channels.filter (fun c => strip c.id == k) =
        ((allChannels files).find? (fun c => strip c.id == k)).toList) ∧
    merge_xmltv [some mdoc1, some mdoc2] =
      ⟨[⟨"X".data, 1⟩, ⟨"Y".data, 3⟩], [10, 11, 12]⟩ ∧
    (merge_xmltv [some mdoc1, some mdoc2]).programmes.length =
      mdoc1.programmes.length + mdoc2.programmes.length := by
  refine ⟨?_, ?_, ?_, ?_, by decide, by decide⟩
  · intro files
    unfold merge_xmltv
    rw [mergeLoop_eq]
    simp
  · intro fs
    rfl
  · intro files
    unfold merge_xmltv
    rw [mergeLoop_eq]
    have := (dedupeFirst_nodup (allChannels files) []).1
    simpa using this
  · intro files k hk
    unfold merge_xmltv
    rw [mergeLoop_eq]
    simpa using dedupeFirst_filter_first (allChannels files) [] k hk (by simp)

/-! ## Custom channels lemmas (C9) -/

theorem combineBest_none_right (a : Option (Nat × SChan)) : combineBest a none = a := by
  cases a <;> rfl

theorem combineBest_some_some (a b : Nat × SChan) :
    combineBest (some a) (some b) = if a.1 < b.1 then some b else some a := rfl

theorem combineBest_assoc (a b c : Option (Nat × SChan)) :
    combineBest (combineBest a b) c = combineBest a (combineBest b c) := by
  rcases a with _ | a
  · rfl
  · rcases b with _ | b
    · rfl
    · rcases c with _ | c
      · rw [combineBest_none_right, combineBest_none_right]
      · by_cases h1 : a.1 < b.1
        · by_cases h2 : b.1 < c.1
          · rw [combineBest_some_some, if_pos h1, combineBest_some_some, if_pos h2,
              combineBest_some_some, if_pos (show a.1 < c.1 by omega)]
          · rw [combineBest_some_some, if_pos h1, combineBest_some_some, if_neg h2,
              combineBest_some_some, if_pos h1]
        · by_cases h2 : b.1 < c.1
          · rw [combineBest_some_some, if_neg h1, combineBest_some_some,
              combineBest_some_some, if_pos h2, combineBest_some_some]
          · rw [combineBest_some_some, if_neg h1, combineBest_some_some,
              combineBest_some_some, if_neg h2, combineBest_some_some, if_neg h1,
              if_neg (show ¬ a.1 < c.1 by omega)]

theorem replaceEntry_cons (ke : PyStr) (ve : Nat × SChan)
    (l : List (PyStr × Nat × SChan)) (k : PyStr) (v : Nat × SChan) :
    replaceEntry ((ke, ve) :: l) k v =
      (if ke = k then (k, v) else (ke, ve)) :: replaceEntry l k v := rfl

theorem lookup_cons_self {β : Type} (k : PyStr) (v : β) (l : List (PyStr × β)) :
    ((k, v) :: l).lookup k = some v := by
  simp only [List.lookup]
  rw [beq_self_eq_true]

theorem lookup_cons_ne {β : Type} {k ke : PyStr} (h : k ≠ ke) (v : β)
    (l : List (PyStr × β)) : ((ke, v) :: l).lookup k = l.lookup k := by
  simp only [List.lookup]
  rw [beq_false_of_ne h]

theorem lookup_replaceEntry_self (l : List (PyStr × Nat × SChan)) (k : PyStr)
    (v : Nat × SChan) :
    (replaceEntry l k v).lookup k = (l.lookup k).map (fun _ => v) := by
  induction l with
  | nil => rfl
  | cons e l ih =>
    rcases e with ⟨ke, ve⟩
    rw [replaceEntry_cons]
    by_cases he : ke = k
    · rw [if_pos he]
      subst he
      rw [lookup_cons_self, lookup_cons_self]
      rfl
    · rw [if_neg he, lookup_cons_ne (Ne.symm he), lookup_cons_ne (Ne.symm he), ih]

theorem lookup_replaceEntry_ne (l : List (PyStr × Nat × SChan)) {k k2 : PyStr}
    (h : k2 ≠ k) (v : Nat × SChan) :
    (replaceEntry l k v).lookup k2 = l.lookup k2 := by
  induction l with
  | nil => rfl
  | cons e l ih =>
    rcases e with ⟨ke, ve⟩
    rw [replaceEntry_cons]
    by_cases he : ke = k
    · rw [if_pos he]
      subst he
      rw [lookup_cons_ne h, lookup_cons_ne h, ih]
    · by_cases he2 : k2 = ke
      · subst he2
        rw [if_neg he, lookup_cons_self, lookup_cons_self]
      · rw [if_neg he, lookup_cons_ne he2, lookup_cons_ne he2, ih]

theorem map_fst_replaceEntry (l : List (PyStr × Nat × SChan)) (k : PyStr)
    (v : Nat × SChan) :
    (replaceEntry l k v).map Prod.fst = l.map Prod.fst := by
  induction l with
  | nil => rfl
  | cons e l ih =>
    rcases e with ⟨ke, ve⟩
    rw [replaceEntry_cons]
    by_cases he : ke = k
    · rw [if_pos he]
      subst he
      rw [List.map_cons, List.map_cons, ih]
    · rw [if_neg he, List.map_cons, List.map_cons, ih]

theorem bestStepChan_lookup_miss (W : List PyStr)
    (acc : List (PyStr × Nat × SChan)) (ch : SChan) {k : PyStr}
    (hm : canonical_id ch.xmltv_id ≠ k) :
    (bestStepChan W acc ch).lookup k = acc.lookup k := by
  simp only [bestStepChan]
  by_cases hg : canonical_id ch.xmltv_id = [] ∨ ¬ W.contains (canonical_id ch.xmltv_id)
  · rw [if_pos hg]
  · rw [if_neg hg]
    split
    · rw [lookup_append_or, lookup_singleton_ne (Ne.symm hm)]
      cases acc.lookup k <;> rfl
    · split
      · exact lookup_replaceEntry_ne acc (Ne.symm hm) _
      · rfl

theorem bestStepChan_lookup_hit (W : List PyStr)
    (acc : List (PyStr × Nat × SChan)) (ch : SChan) {k : PyStr}
    (hm : canonical_id ch.xmltv_id = k) (hne : k ≠ []) (hw : W.contains k = true) :
    (bestStepChan W acc ch).lookup k =
      combineBest (acc.lookup k) (some (quality_rank ch.xmltv_id, ch)) := by
  simp only [bestStepChan, hm]
  rw [if_neg (by
    rintro (h1 | h2)
    · exact hne h1
    · exact h2 hw)]
  split
  · next hl =>
    rw [lookup_append_or, hl, lookup_singleton_self]
    rfl
  · next rc hl =>
    rw [hl]
    by_cases h2 : rc.1 < quality_rank ch.xmltv_id
    · rw [if_pos h2, lookup_replaceEntry_self, hl, combineBest_some_some, if_pos h2]
      rfl
    · rw [if_neg h2, hl, combineBest_some_some, if_neg h2]

theorem bestFold_lookup_aux {W : List PyStr} {k : PyStr}
    (hne : k ≠ []) (hw : W.contains k = true) :
    ∀ (chans : List SChan) (acc : List (PyStr × Nat × SChan)),
      (chans.foldl (bestStepChan W) acc).lookup k =
        combineBest (acc.lookup k) (firstBest k chans) := by
  intro chans
  induction chans with
  | nil =>
    intro acc
    rw [List.foldl_nil, firstBest, combineBest_none_right]
  | cons c cs ih =>
    intro acc
    rw [List.foldl_cons]
    by_cases hm : canonical_id c.xmltv_id = k
    · rw [ih, bestStepChan_lookup_hit W acc c hm hne hw]
      simp only [firstBest]
      rw [if_pos hm, combineBest_assoc]
    · rw [ih, bestStepChan_lookup_miss W acc c hm]
      simp only [firstBest]
      rw [if_neg hm]

theorem bestFold_lookup {W : List PyStr} {chans : List SChan} {k : PyStr}
    (hne : k ≠ []) (hw : W.contains k = true) :
    (bestFold W chans).lookup k = firstBest k chans := by
  unfold bestFold
  rw [bestFold_lookup_aux hne hw chans []]
  rfl

theorem combineBest_some_left_ne_none (p : Nat × SChan) (x : Option (Nat × SChan)) :
    combineBest (some p) x ≠ none := by
  cases x with
  | none => simp [combineBest]
  | some q =>
    rw [combineBest_some_some]
    split <;> simp

theorem firstBest_eq_none_iff (k : PyStr) (l : List SChan) :
    firstBest k l = none ↔ ∀ c ∈ l, canonical_id c.xmltv_id ≠ k := by
  induction l with
  | nil => simp [firstBest]
  | cons c cs ih =>
    simp only [firstBest]
    by_cases hm : canonical_id c.xmltv_id = k
    · rw [if_pos hm]
      constructor
      · intro h
        exact absurd h (combineBest_some_left_ne_none _ _)
      · intro h
        exact absurd hm (h c (List.mem_cons_self _ _))
    · rw [if_neg hm, ih]
      constructor
      · intro h c2 hc2
        rcases List.mem_cons.mp hc2 with hx | hx
        · subst hx; exact hm
        · exact h c2 hx
      · intro h c2 hc2
        exact h c2 (List.mem_cons_of_mem _ hc2)

theorem firstBest_spec (k : PyStr) :
    ∀ (l : List SChan) (r : Nat) (ch : SChan), firstBest k l = some (r, ch) →
      r = quality_rank ch.xmltv_id ∧ canonical_id ch.xmltv_id = k ∧
      ∃ pre post, l = pre ++ ch :: post ∧
        (∀ c ∈ pre, canonical_id c.xmltv_id = k → quality_rank c.xmltv_id < r) ∧
        (∀ c ∈ post, canonical_id c.xmltv_id = k → quality_rank c.xmltv_id ≤ r) := by
  intro l
  induction l with
  | nil => intro r ch h; simp [firstBest] at h
  | cons c cs ih =>
    intro r ch h
    simp only [firstBest] at h
    by_cases hm : canonical_id c.xmltv_id = k
    · rw [if_pos hm] at h
      cases hfb : firstBest k cs with
      | none =>
        rw [hfb, combineBest_none_right] at h
        injection h with h
        rw [Prod.mk.injEq] at h
        obtain ⟨hr, hch⟩ := h
        subst hch
        refine ⟨hr.symm, hm, [], cs, by simp, by simp, ?_⟩
        intro c2 hc2 hk2
        exact absurd hk2 ((firstBest_eq_none_iff k cs).mp hfb c2 hc2)
      | some p =>
        rw [hfb, combineBest_some_some] at h
        by_cases hlt : quality_rank c.xmltv_id < p.1
        · rw [if_pos hlt] at h
          have hfb2 : firstBest k cs = some (r, ch) := by
            rw [hfb, ← h]
          obtain ⟨hr, hck, pre, post, hsplit, hpre, hpost⟩ := ih r ch hfb2
          refine ⟨hr, hck, c :: pre, post, by rw [hsplit]; rfl, ?_, hpost⟩
          intro c2 hc2 hk2
          rcases List.mem_cons.mp hc2 with hx | hx
          · subst hx
            have hp : p = (r, ch) := by
              injection h
            rw [hp] at hlt
            exact hlt
          · exact hpre c2 hx hk2
        · rw [if_neg hlt] at h
          injection h with h
          rw [Prod.mk.injEq] at h
          obtain ⟨hr, hch⟩ := h
          subst hch
          obtain ⟨hr2, hck2, pre2, post2, hsplit2, hpre2, hpost2⟩ :=
            ih p.1 p.2 (by rw [hfb])
          refine ⟨hr.symm, hm, [], cs, by simp, by simp, ?_⟩
          intro c2 hc2 hk2
          rw [hsplit2] at hc2
          rw [← hr]
          rcases List.mem_append.mp hc2 with hx | hx
          · have := hpre2 c2 hx hk2
            omega
          · rcases List.mem_cons.mp hx with hx | hx
            · subst hx
              omega
            · have := hpost2 c2 hx hk2
              omega
    · rw [if_neg hm] at h
      obtain ⟨hr, hck, pre, post, hsplit, hpre, hpost⟩ := ih r ch h
      refine ⟨hr, hck, c :: pre, post, by rw [hsplit]; rfl, ?_, hpost⟩
      intro c2 hc2 hk2
      rcases List.mem_cons.mp hc2 with hx | hx
      · subst hx
        exact absurd hk2 hm
      · exact hpre c2 hx hk2

theorem bestFold_keys_nodup_aux (W : List PyStr) :
    ∀ (chans : List SChan) (acc : List (PyStr × Nat × SChan)),
      (acc.map Prod.fst).Nodup → ((chans.foldl (bestStepChan W) acc).map Prod.fst).Nodup := by
  intro chans
  induction chans with
  | nil => intro acc h; simpa using h
  | cons c cs ih =>
    intro acc h
    rw [List.foldl_cons]
    apply ih
    simp only [bestStepChan]
    by_cases hg : canonical_id c.xmltv_id = [] ∨ ¬ W.contains (canonical_id c.xmltv_id)
    · rw [if_pos hg]; exact h
    · rw [if_neg hg]
      split
      · next hl =>
        rw [List.map_append]
        simp only [List.map_cons, List.map_nil]
        rw [List.nodup_append]
        refine ⟨h, List.nodup_singleton _, ?_⟩
        intro a ha hb
        simp at hb
        subst hb
        exact (lookup_eq_none_iff_keys _ _).mp hl ha
      · split
        · rw [map_fst_replaceEntry]; exact h
        · exact h

theorem bestStepChan_ne_nil (W : List PyStr) (acc : List (PyStr × Nat × SChan))
    (c : SChan) (h : acc ≠ []) : bestStepChan W acc c ≠ [] := by
  simp only [bestStepChan]
  by_cases hg : canonical_id c.xmltv_id = [] ∨ ¬ W.contains (canonical_id c.xmltv_id)
  · rw [if_pos hg]; exact h
  · rw [if_neg hg]
    split
    · simp
    · split
      · simp only [replaceEntry]
        intro hmap
        exact h (List.map_eq_nil_iff.mp hmap)
      · exact h

theorem bestFold_ne_nil_aux (W : List PyStr) :
    ∀ (chans : List SChan) (acc : List (PyStr × Nat × SChan)), acc ≠ [] →
      chans.foldl (bestStepChan W) acc ≠ [] := by
  intro chans
  induction chans with
  | nil => intro acc h; simpa using h
  | cons c cs ih =>
    intro acc h
    rw [List.foldl_cons]
    exact ih _ (bestStepChan_ne_nil W acc c h)

theorem bestFold_eq_nil_iff (W : List PyStr) (chans : List SChan) :
    bestFold W chans = [] ↔
      ∀ ch ∈ chans,
        canonical_id ch.xmltv_id = [] ∨ ¬ W.contains (canonical_id ch.xmltv_id) := by
  unfold bestFold
  induction chans with
  | nil => simp
  | cons c cs ih =>
    rw [List.foldl_cons]
    by_cases hg : canonical_id c.xmltv_id = [] ∨ ¬ W.contains (canonical_id c.xmltv_id)
    · have hstep : bestStepChan W [] c = [] := by
        simp only [bestStepChan]
        rw [if_pos hg]
      rw [hstep]
      rw [ih]
      constructor
      · intro h ch hch
        rcases List.mem_cons.mp hch with hx | hx
        · subst hx; exact hg
        · exact h ch hx
      · intro h ch hch
        exact h ch (List.mem_cons_of_mem _ hch)
    · have hstep : bestStepChan W [] c =
          [(canonical_id c.xmltv_id, quality_rank c.xmltv_id, c)] := by
        simp only [bestStepChan]
        rw [if_neg hg]
        rfl
      rw [hstep]
      constructor
      · intro h
        exact absurd h (bestFold_ne_nil_aux W cs _ (by simp))
      · intro h
        exact absurd (h c (List.mem_cons_self _ _)) hg

/-- C9: `build_custom_channels_xml` raises exactly when no source channel
matches a wanted canonical key; otherwise the kept `best` table has at
most one entry per canonical key, and the entry for key `k` is the first
channel (in file order) attaining the maximal quality rank among the
channels with key `k` (`@HD` ids rank 2, above `@SD` at 1, above the rest
at 0, and only a strictly greater rank replaces); each output element is
a kept channel with its `xmltv_id` rewritten to the wanted (stripped)
original id; concretely, wanting `A@x` among `a@SD`, `a@HD`, `a@hd`, `z`
keeps exactly the first `@HD` channel, rewritten to `A@x`. -/
theorem C9_build_custom_channels :
    (∀ tvg_ids chans, build_custom_channels_xml tvg_ids chans = .error () ↔
      ∀ ch ∈ chans, canonical_id ch.xmltv_id = [] ∨
        canonical_id ch.xmltv_id ∉ (wanted_map tvg_ids).map Prod.fst) ∧
    (∀ (W : List PyStr) (chans : List SChan),
      ((bestFold W chans).map Prod.fst).Nodup) ∧
    (∀ (W : List PyStr) (chans : List SChan) (k : PyStr), k ≠ [] →
      W.contains k = true → (bestFold W chans).lookup k = firstBest k chans) ∧
    (∀ (k : PyStr) (l : List SChan) (r : Nat) (ch : SChan),
      firstBest k l = some (r, ch) →
      r = quality_rank ch.xmltv_id ∧ canonical_id ch.xmltv_id = k ∧
      ∃ pre post, l = pre ++ ch :: post ∧
        (∀ c ∈ pre, canonical_id c.xmltv_id = k → quality_rank c.xmltv_id < r) ∧
        (∀ c ∈ post, canonical_id c.xmltv_id = k → quality_rank c.xmltv_id ≤ r)) ∧
    (∀ tvg_ids chans out, build_custom_channels_xml tvg_ids chans = .ok out →
      out = (bestFold ((wanted_map tvg_ids).map Prod.fst) chans).map
        (fun e => SChan.mk (((wanted_map tvg_ids).lookup e.1).getD []) e.2.2.payload)) ∧
    build_custom_channels_xml ["A@x".data]
      [⟨"a@SD".data, 1⟩, ⟨"a@HD".data, 2⟩, ⟨"a@hd".data, 3⟩, ⟨"z".data, 9⟩] =
      .ok [⟨"A@x".data, 2⟩] := by
  refine ⟨?_, ?_, ?_, firstBest_spec, ?_, by decide⟩
  · intro tvg_ids chans
    unfold build_custom_channels_xml
    by_cases hw : wanted_map tvg_ids = []
    · rw [if_pos hw, hw]
      constructor
      · intro _ ch _
        right
        simp
      · intro _
        rfl
    · rw [if_neg hw]
      by_cases hlen : ((bestFold ((wanted_map tvg_ids).map Prod.fst) chans).map
          (fun e => SChan.mk (((wanted_map tvg_ids).lookup e.1).getD []) e.2.2.payload)).length = 0
      · rw [if_pos hlen]
        have hnil : bestFold ((wanted_map tvg_ids).map Prod.fst) chans = [] := by
          have := List.length_map (bestFold ((wanted_map tvg_ids).map Prod.fst) chans)
            (fun e => SChan.mk (((wanted_map tvg_ids).lookup e.1).getD []) e.2.2.payload)
          rw [this] at hlen
          exact List.length_eq_zero.mp hlen
        rw [(bestFold_eq_nil_iff _ chans)] at hnil
        constructor
        · intro _ ch hch
          rcases hnil ch hch with h | h
          · exact Or.inl h
          · right
            intro hmem
            exact h (by simpa using hmem)
        · intro _
          rfl
      · rw [if_neg hlen]
        constructor
        · intro h
          exact absurd h (by simp)
        · intro hall
          exfalso
          apply hlen
          rw [List.length_map]
          rw [List.length_eq_zero, bestFold_eq_nil_iff]
          intro ch hch
          rcases hall ch hch with h | h
          · exact Or.inl h
          · right
            intro hc
            exact h (by simpa using hc)
  · intro W chans
    exact bestFold_keys_nodup_aux W chans [] (by simp)
  · intro W chans k hne hw
    exact bestFold_lookup hne hw
  · intro tvg_ids chans out h
    unfold build_custom_channels_xml at h
    by_cases hw : wanted_map tvg_ids = []
    · rw [if_pos hw] at h
      exact absurd h (by simp)
    · rw [if_neg hw] at h
      by_cases hlen : ((bestFold ((wanted_map tvg_ids).map Prod.fst) chans).map
          (fun e => SChan.mk (((wanted_map tvg_ids).lookup e.1).getD []) e.2.2.payload)).length = 0
      · rw [if_pos hlen] at h
        exact absurd h (by simp)
      · rw [if_neg hlen] at h
        injection h with h
        exact h.symm

end IPTV
